import Mathlib

set_option maxHeartbeats 1000000

/-! Verification of the agent-memory store: a shallow embedding of the
path validator (`src/lib/pathValidation.ts`), the text-editor primitives
(`TextUtils` in `src/lib/utils.ts`), and the storage adapters
(`storage.ts`), together with theorems settling the specification claims.
Text is embedded as `List Char`; JavaScript string builtins used by the
source (`split`, `slice`, `replace`, `decodeURIComponent`,
`path.posix.normalize`/`join`/`dirname`/`basename`) are modelled
explicitly below. -/

/-- Text in the embedding: a JavaScript string as its list of characters
(UTF-16 code units are identified with characters; the sources only use
them uniformly). -/
abbrev Str := List Char

/-! ### JavaScript string builtins -/

/-- JS `text.split(sep)` for a one-character separator: pieces between
separator occurrences; the empty string splits to `[""]`, a trailing
separator yields a trailing empty piece. This is exactly
`List.splitOn`. -/
def jsSplitChar (sep : Char) (t : Str) : List Str := t.splitOn sep

/-- Clamped index resolution of JS `Array.prototype.slice`: negative
indices count from the end, everything is clamped to `[0, len]`. -/
def jsSliceIndex (len : Nat) (i : Int) : Nat :=
  if i < 0 then (max ((len : Int) + i) 0).toNat else min i.toNat len

/-- JS `arr.slice(s, e)`: the elements from resolved index `s`
(inclusive) to resolved index `e` (exclusive). -/
def jsSlice (l : List α) (s e : Int) : List α :=
  (l.take (jsSliceIndex l.length e)).drop (jsSliceIndex l.length s)

/-- Decidable equality for `Except`, so that concrete adapter results
can be evaluated by `decide`. -/
instance [DecidableEq ε] [DecidableEq α] : DecidableEq (Except ε α) := fun x y =>
  match x, y with
  | .error a, .error b => decidable_of_iff (a = b) (by simp)
  | .error _, .ok _ => isFalse (by simp)
  | .ok _, .error _ => isFalse (by simp)
  | .ok a, .ok b => decidable_of_iff (a = b) (by simp)

/-- Fuelled scanner counting non-overlapping occurrences of `old`
left to right (the fuel dominates the text length, making the
definition structurally recursive and kernel-computable). -/
def countOccAux (old : Str) : Nat → Str → Nat
  | 0, _ => 0
  | _, [] => 0
  | fuel + 1, c :: t =>
    if old ≠ [] ∧ old.isPrefixOf (c :: t) then
      countOccAux old fuel ((c :: t).drop old.length) + 1
    else
      countOccAux old fuel t

/-- Number of non-overlapping occurrences of `old` in a text, scanning
left to right — exactly the count `text.split(oldStr).length - 1`
computed by `TextUtils.replaceFirst` for a non-empty `oldStr`. -/
def countOcc (old t : Str) : Nat := countOccAux old t.length t

/-- The value `text.split(oldStr).length - 1` as computed by the source,
including the `oldStr = ""` special case of JS `split` (where
`"".split("")` is `[]`, so the count is `-1`). -/
def splitCountJs (old text : Str) : Int :=
  if old = [] then (text.length : Int) - 1 else (countOcc old text : Int)

/-- Splits a text around the first occurrence of `old` (the empty
pattern matches at the start), returning `none` when `old` does not
occur. -/
def splitFirst (old : Str) : Str → Option (Str × Str)
  | [] => if old = [] then some ([], []) else none
  | c :: t =>
    if old.isPrefixOf (c :: t) then some ([], (c :: t).drop old.length)
    else
      match splitFirst old t with
      | some (p, s) => some (c :: p, s)
      | none => none

/-- ECMAScript GetSubstitution for a string pattern (no capture groups):
interprets the replacement-text escapes dollar-dollar, dollar-ampersand
(the match), dollar-backquote (the text before the match) and
dollar-quote (the text after the match); anything else is literal. -/
def getSubstitution (matched before after : Str) : Str → Str
  | [] => []
  | [c] => [c]
  | c :: d :: r2 =>
    if c = '$' then
      if d = '$' then '$' :: getSubstitution matched before after r2
      else if d = '&' then matched ++ getSubstitution matched before after r2
      else if d = Char.ofNat 96 then before ++ getSubstitution matched before after r2
      else if d = Char.ofNat 39 then after ++ getSubstitution matched before after r2
      else c :: getSubstitution matched before after (d :: r2)
    else c :: getSubstitution matched before after (d :: r2)

/-- JS `text.replace(old, new)` with a string pattern: substitutes the
first occurrence of `old` (processing `$`-escapes in `new`), or returns
the text unchanged when there is no occurrence. -/
def jsStringReplace (t old new : Str) : Str :=
  match splitFirst old t with
  | some (p, s) => p ++ getSubstitution old p s new ++ s
  | none => t

/-! ### TextUtils (`src/lib/utils.ts`) -/

/-- The ` in ${filePath}` context appended to replaceFirst error
messages when a path is supplied. -/
def fileContextMsg : Option Str → Str
  | some fp => " in ".data ++ fp
  | none => []

/-- The not-found error message of `TextUtils.replaceFirst`. -/
def notFoundReplaceMsg (path : Option Str) : Str :=
  "Text not found".data ++ fileContextMsg path ++
    ". Check that the exact text exists, including whitespace and capitalization. Use \x27view\x27 to see the current file contents.".data

/-- The ambiguity error message of `TextUtils.replaceFirst`, stating the
occurrence count. -/
def ambiguousReplaceMsg (count : Int) (path : Option Str) : Str :=
  "Text appears ".data ++ (toString count).data ++ " times".data ++ fileContextMsg path ++
    ". Must be unique. Use \x27view\x27 to see all occurrences and provide more context to make the match unique.".data

/-- `TextUtils.replaceFirst(text, oldStr, newStr, filePath?)`: counts
occurrences via `split`, errors on zero or more than one, otherwise
delegates to `text.replace(oldStr, newStr)`. -/
def replaceFirst (text old new : Str) (filePath : Option Str) : Except Str Str :=
  let count := splitCountJs old text
  if count = 0 then .error (notFoundReplaceMsg filePath)
  else if 1 < count then .error (ambiguousReplaceMsg count filePath)
  else .ok (jsStringReplace text old new)

/-- The line count of a text under `text.split(newline)`. -/
def lineCount (text : Str) : Int := ((jsSplitChar '\n' text).length : Int)

/-- The invalid-line error message of `TextUtils.insertAtLine`. -/
def invalidLineMsg (lineNumber : Int) (numLines : Nat) : Str :=
  "Line number ".data ++ (toString lineNumber).data ++ " is invalid. The file has ".data ++
    (toString numLines).data ++ " lines (valid range: 1-".data ++ (toString (numLines + 1)).data ++
    "). Use \x27view\x27 to see the current file structure.".data

/-- JS `lines.splice(n, 0, x)` for `0 ≤ n ≤ lines.length`: inserts `x`
at index `n` (take/drop clamp exactly like splice for larger `n`). -/
def spliceAt (n : Nat) (x : α) (l : List α) : List α := l.take n ++ x :: l.drop n

/-- `TextUtils.insertAtLine(text, lineNumber, insertText)`: splits into
lines, rejects an out-of-range 0-based line number, otherwise splices
the new line in and rejoins with newlines. -/
def insertAtLine (text : Str) (lineNumber : Int) (insertText : Str) : Except Str Str :=
  let lines := jsSplitChar '\n' text
  if lineNumber < 0 ∨ (lines.length : Int) < lineNumber then
    .error (invalidLineMsg lineNumber lines.length)
  else
    .ok (List.intercalate ['\n'] (spliceAt lineNumber.toNat insertText lines))

/-- `TextUtils.extractLines(text, start, end)`: 1-based inclusive line
range via `lines.slice(start - 1, end)`. -/
def extractLines (text : Str) (s e : Int) : Str :=
  let lines := jsSplitChar '\n' text
  List.intercalate ['\n'] (jsSlice lines (s - 1) e)

/-! ### Path validation (`src/lib/pathValidation.ts`) and the Node path builtins -/

/-- The reserved root directory constant `MEMORIES_DIR`. -/
def MEMORIES_DIR : Str := "/memories".data

/-- Hexadecimal digit test for percent-decoding. -/
def isHexDigit (c : Char) : Bool :=
  (48 ≤ c.toNat && c.toNat ≤ 57) || (97 ≤ c.toNat && c.toNat ≤ 102) ||
    (65 ≤ c.toNat && c.toNat ≤ 70)

/-- Value of a hexadecimal digit. -/
def hexVal (c : Char) : Nat :=
  if c.toNat ≤ 57 then c.toNat - 48 else if c.toNat ≤ 70 then c.toNat - 55 else c.toNat - 87

/-- Percent-decoding as performed by `decodeURIComponent`: every `%`
must be followed by two hex digits, otherwise decoding fails. Decoding
is modelled byte-wise (the UTF-8 recombination of multi-byte sequences,
which only affects which exact character a multi-byte escape denotes, is
abstracted to one character per escape). -/
def percentDecode : Str → Option Str
  | [] => some []
  | c :: r =>
    if c = '%' then
      match r with
      | c1 :: c2 :: r2 =>
        if isHexDigit c1 ∧ isHexDigit c2 then
          (percentDecode r2).map (fun d => Char.ofNat (16 * hexVal c1 + hexVal c2) :: d)
        else none
      | _ => none
    else (percentDecode r).map (fun d => c :: d)

/-- The `try { decodeURIComponent } catch { use the raw path }` step of
`validateMemoryPath`. -/
def decodeURIComponentOr (p : Str) : Str :=
  match percentDecode p with
  | some d => d
  | none => p

/-- The `/`-separated segments of a path, with empty and `.` segments
discarded, as in Node's `normalizeString`. -/
def pathSegments (p : Str) : List Str :=
  (p.splitOn '/').filter (fun s => s ≠ [] ∧ s ≠ ['.'])

/-- One step of Node `normalizeString` segment resolution: `..` pops the
last segment; in a relative path a `..` that cannot pop (empty stack or
a stack of `..`s) is kept, in an absolute path it is dropped. -/
def resolveStep (abs : Bool) (acc : List Str) (seg : Str) : List Str :=
  if seg = ['.', '.'] then
    if abs then acc.dropLast
    else if acc ≠ [] ∧ acc.getLast? ≠ some ['.', '.'] then acc.dropLast
    else acc ++ [['.', '.']]
  else acc ++ [seg]

/-- Node `normalizeString`: fold the resolution step over the segments. -/
def resolveSegs (abs : Bool) (segs : List Str) : List Str :=
  segs.foldl (resolveStep abs) []

/-- Reassembly step of Node `path.posix.normalize` from the resolved
segments and the absolute/trailing-separator flags of the input. -/
def posixNormalizeCore (ab trail : Bool) (segs : List Str) : Str :=
  let core := List.intercalate ['/'] (resolveSegs ab segs)
  if core = [] then
    (if ab then ['/'] else if trail then ['.', '/'] else ['.'])
  else
    (if ab then '/' :: core else core) ++ (if trail then ['/'] else [])

/-- Node `path.posix.normalize`: resolves `.`/`..` segments and
collapses separators, keeping a leading separator for absolute paths and
re-appending a single trailing separator when the input had one. -/
def posixNormalize (p : Str) : Str :=
  if p = [] then ".".data
  else posixNormalizeCore (p.head? == some '/') (p.getLast? == some '/') (pathSegments p)

/-- Node `path.posix.join` for the two-argument uses in the sources
(first argument `/memories`): concatenate with a separator and
normalize; an empty second argument just normalizes the first. -/
def posixJoin (a b : Str) : Str :=
  if b = [] then posixNormalize a else posixNormalize (a ++ '/' :: b)

/-- Node `path.posix.dirname`: everything before the separator that
precedes the last non-separator run, with Node's root edge cases. -/
def posixDirname (p : Str) : Str :=
  if p = [] then ".".data
  else
    let rev := p.reverse
    let rev1 := rev.dropWhile (fun c => c = '/')
    let rev2 := rev1.dropWhile (fun c => c ≠ '/')
    if rev2.length ≤ 1 then
      (if p.head? = some '/' then "/".data else ".".data)
    else if p.head? = some '/' ∧ rev2.length = 2 then "//".data
    else (rev2.tail).reverse

/-- Node `path.posix.basename`: the last non-separator run of the path,
ignoring trailing separators. -/
def posixBasename (p : Str) : Str :=
  let rev := p.reverse
  let rev1 := rev.dropWhile (fun c => c = '/')
  (rev1.takeWhile (fun c => c ≠ '/')).reverse

/-- Boolean substring test, modelling JS `String.prototype.includes`. -/
def containsSeq [DecidableEq α] (pat : List α) : List α → Bool
  | [] => pat.isPrefixOf []
  | c :: t => pat.isPrefixOf (c :: t) || containsSeq pat t

/-- `validateMemoryPath(memoryPath)` from `src/lib/pathValidation.ts`:
percent-decode (falling back to the raw string on failure), normalize,
require the `/memories` prefix, reject a remaining `..` substring, and
reject raw control characters. -/
def validateMemoryPath (p : Str) : Except Str Unit :=
  let decoded := decodeURIComponentOr p
  let normalized := posixNormalize decoded
  if ¬ (MEMORIES_DIR.isPrefixOf normalized) then
    .error "Invalid path: must be within /memories directory".data
  else if containsSeq "..".data normalized then
    .error "Invalid path: directory traversal not allowed".data
  else if p.any (fun c => c.toNat ≤ 31) then
    .error "Invalid path: contains illegal characters".data
  else .ok ()

/-- `normalizeMemoryPath(memoryPath)`: strip one trailing separator,
except from the bare root `/`. -/
def normalizeMemoryPath (p : Str) : Str :=
  if p.getLast? = some '/' ∧ p ≠ ['/'] then p.dropLast else p

/-- `getFullPath(memoryPath)` shared by the workspace-state,
branch-state and secret adapters: validate, strip a trailing separator,
and root the path under `/memories` when it does not already start with
it. -/
def getFullPath (p : Str) : Except Str Str :=
  match validateMemoryPath p with
  | .error e => .error e
  | .ok _ =>
    let normalized := normalizeMemoryPath p
    if MEMORIES_DIR.isPrefixOf normalized then .ok normalized
    else .ok (posixJoin MEMORIES_DIR normalized)

/-- A path lies in the scope of the memories root in the path-segment
sense: it is the root itself or properly nested below it. The validator
of the source has no such segment-boundary check, only a string-prefix
check. -/
def underMemoriesRoot (p : Str) : Prop :=
  p = MEMORIES_DIR ∨ (MEMORIES_DIR ++ ['/']) <+: p

instance (p : Str) : Decidable (underMemoriesRoot p) := by
  unfold underMemoriesRoot
  infer_instance

/-! ### Workspace-state adapter (`WorkspaceStateStorage` in `storage.ts`;
the branch-state adapter `BranchStateStorage` runs the identical
operation bodies over a branch-scoped copy of the same five mappings) -/

/-- A stored file entry of the memento `files` record. Timestamps are
modelled as naturals supplied by the caller (`new Date()` at each
operation). -/
structure FileEntry where
  content : Str
  modified : Nat
deriving DecidableEq, Repr

/-- Lookup in a JS-object-like association list. -/
def alookup (k : Str) : List (Str × β) → Option β
  | [] => none
  | (k2, v) :: t => if k2 = k then some v else alookup k t

/-- JS object property assignment: update the existing key in place, or
append a new key (JS objects preserve insertion order). -/
def aset (k : Str) (v : β) : List (Str × β) → List (Str × β)
  | [] => [(k, v)]
  | (k2, v2) :: t => if k2 = k then (k, v) :: t else (k2, v2) :: aset k v t

/-- JS `delete obj[k]`. -/
def aerase (k : Str) (m : List (Str × β)) : List (Str × β) :=
  m.filter (fun kv => kv.1 ≠ k)

/-- The per-workspace memento state: the five parallel path-keyed
mappings `files`, `directories`, `access`, `modified` and `tldr`. -/
structure WsState where
  files : List (Str × FileEntry)
  dirs : List Str
  access : List (Str × Nat)
  modifiedTimes : List (Str × Nat)
  tldrs : List (Str × Str)
deriving DecidableEq, Repr

/-- The initialized storage structure: empty mappings, the root
directory present. -/
def wsInit : WsState := ⟨[], [MEMORIES_DIR], [], [], []⟩

/-- `ensureParentDirectories(filePath)`: recursively materialize every
missing parent directory. The source recursion has no own base case and
diverges when the dirname chain reaches a fixpoint outside the
directory set (e.g. ensuring a parent of `/`); the fuel makes the model
total, with `none` marking that divergence. -/
def ensureParentDirs : Nat → List Str → Str → Option (List Str)
  | 0, _, _ => none
  | fuel + 1, dirs, filePath =>
    let parent := posixDirname filePath
    if parent ∈ dirs then some dirs
    else
      match ensureParentDirs fuel dirs parent with
      | some dirs2 => some (dirs2 ++ [parent])
      | none => none

/-- `String(n).padStart(4, ' ')`. -/
def padStart4 (s : Str) : Str := List.replicate (4 - s.length) ' ' ++ s

/-- The numbered-line rendering of `view` for file contents. -/
def renderNumbered (lines : List Str) (startNum : Int) : Str :=
  List.intercalate ['\n']
    (lines.enum.map (fun ie => padStart4 (toString ((ie.1 : Int) + startNum)).data ++ ": ".data ++ ie.2))

/-- File-content rendering of `view`, with the optional 1-based
inclusive range (`-1` end meaning to the end of the file). -/
def renderFileView (text : Str) (viewRange : Option (Int × Int)) : Str :=
  let lines := jsSplitChar '\n' text
  match viewRange with
  | none => renderNumbered lines 1
  | some (a, b) =>
    let startLine := max 1 a - 1
    let endLine := if b = -1 then (lines.length : Int) else b
    renderNumbered (jsSlice lines startLine endLine) (startLine + 1)

/-- Code-unit string comparison of JS default `Array.prototype.sort`. -/
def lexLe : Str → Str → Bool
  | [], _ => true
  | _ :: _, [] => false
  | c :: a2, d :: b2 =>
    if c.toNat < d.toNat then true
    else if d.toNat < c.toNat then false
    else lexLe a2 b2

/-- JS default `items.sort()` on strings (code-unit order; JS sort is
stable, modelled by insertion sort). -/
def sortLex (l : List Str) : List Str :=
  List.insertionSort (fun a b => lexLe a b = true) l

/-- The `Directory: ...` listing text of `view`. -/
def dirListing (p : Str) (items : List Str) : Str :=
  "Directory: ".data ++ p ++ ['\n'] ++
    List.intercalate ['\n'] ((sortLex items).map (fun i => "- ".data ++ i))

/-- The `view` not-found message for files. -/
def viewNotFoundMsg (p : Str) : Str :=
  "The file \x27".data ++ p ++
    "\x27 does not exist yet. Use the \x27create\x27 command to create it first, or use \x27view\x27 on the parent directory \x27/memories\x27 to see available files.".data

/-- The `readRaw` not-found message. -/
def readRawNotFoundMsg (p : Str) : Str :=
  "The file \x27".data ++ p ++ "\x27 does not exist.".data

/-- The immediate children of a directory, as rendered by `view`:
entries one separator level below the directory, subdirectories marked
with a trailing separator (directories first, as the source pushes
them). -/
def immediateChildren (f : Str) (dirs : List Str) (fileKeys : List Str) : List Str :=
  (dirs.filterMap (fun d =>
    if d ≠ f ∧ (f ++ ['/']) <+: d then
      (let rel := d.drop (f.length + 1)
       if '/' ∉ rel then some (rel ++ ['/']) else none)
    else none)) ++
  (fileKeys.filterMap (fun k =>
    if (f ++ ['/']) <+: k then
      (let rel := k.drop (f.length + 1)
       if '/' ∉ rel then some rel else none)
    else none))

/-- `WorkspaceStateStorage.view`: records a fresh access time for the
resolved path first, then serves a directory listing or the rendered
file, or fails NotFound. -/
def wsView (s : WsState) (p : Str) (viewRange : Option (Int × Int)) (now : Nat) :
    Except Str Str × WsState :=
  match getFullPath p with
  | .error e => (.error e, s)
  | .ok f =>
    let s1 : WsState := { s with access := aset f now s.access }
    if f ∈ s.dirs then
      let items := immediateChildren f s.dirs (s.files.map (fun kv => kv.1))
      if items = [] ∧ f = MEMORIES_DIR then
        (.ok ("Directory: ".data ++ p ++ "\n(empty - no files created yet)".data), s1)
      else
        (.ok (dirListing p items), s1)
    else
      match alookup f s.files with
      | none => (.error (viewNotFoundMsg p), s1)
      | some e => (.ok (renderFileView e.content viewRange), s1)

/-- `WorkspaceStateStorage.readRaw`: records a fresh access time first,
then returns the raw content or fails NotFound. -/
def wsReadRaw (s : WsState) (p : Str) (now : Nat) : Except Str Str × WsState :=
  match getFullPath p with
  | .error e => (.error e, s)
  | .ok f =>
    let s1 : WsState := { s with access := aset f now s.access }
    match alookup f s.files with
    | none => (.error (readRawNotFoundMsg p), s1)
    | some e => (.ok e.content, s1)

/-- `WorkspaceStateStorage.create`: ensure ancestors, then upsert the
file and stamp access and modified times. -/
def wsCreate (s : WsState) (p : Str) (content : Str) (now : Nat) :
    Except Str Unit × WsState :=
  match getFullPath p with
  | .error e => (.error e, s)
  | .ok f =>
    match ensureParentDirs (f.length + 1) s.dirs f with
    | none => (.error "ensureParentDirectories does not terminate".data, s)
    | some dirs2 =>
      (.ok (), { files := aset f ⟨content, now⟩ s.files,
                 dirs := dirs2,
                 access := aset f now s.access,
                 modifiedTimes := aset f now s.modifiedTimes,
                 tldrs := s.tldrs })

/-- The `delete` not-found message. -/
def deleteNotFoundMsg (p : Str) : Str :=
  "Cannot delete \x27".data ++ p ++
    "\x27 because it does not exist. Use \x27view\x27 on \x27/memories\x27 to see what files are available to delete.".data

/-- `WorkspaceStateStorage.delete`: for a directory, removes the files
and subdirectories strictly nested under it plus (unless it is the
root) the directory itself, with the metadata of the removed file keys;
for a file, removes that entry; otherwise fails NotFound. -/
def wsDelete (s : WsState) (p : Str) : Except Str Str × WsState :=
  match getFullPath p with
  | .error e => (.error e, s)
  | .ok f =>
    if f ∈ s.dirs then
      let delKeys := (s.files.map (fun kv => kv.1)).filter (fun k => (f ++ ['/']) <+: k)
      let files2 := s.files.filter (fun kv => ¬ ((f ++ ['/']) <+: kv.1))
      let access2 := s.access.filter (fun kv => kv.1 ∉ delKeys)
      let modified2 := s.modifiedTimes.filter (fun kv => kv.1 ∉ delKeys)
      let tldrs2 := s.tldrs.filter (fun kv => kv.1 ∉ delKeys)
      let dirs1 := s.dirs.filter (fun d => ¬ ((f ++ ['/']) <+: d))
      let dirs2 := if f ≠ MEMORIES_DIR then dirs1.filter (fun d => d ≠ f) else dirs1
      (.ok ("Directory deleted: ".data ++ p),
        { files := files2, dirs := dirs2, access := access2,
          modifiedTimes := modified2, tldrs := tldrs2 })
    else
      match alookup f s.files with
      | some _ =>
        (.ok ("File deleted: ".data ++ p),
          { files := aerase f s.files, dirs := s.dirs, access := aerase f s.access,
            modifiedTimes := aerase f s.modifiedTimes, tldrs := aerase f s.tldrs })
      | none => (.error (deleteNotFoundMsg p), s)

/-- The `rename` not-found message. -/
def renameNotFoundMsg (p : Str) : Str :=
  "Cannot rename \x27".data ++ p ++
    "\x27 because it does not exist. Use \x27view\x27 on \x27/memories\x27 to see what files are available to rename.".data

/-- The metadata move of `rename`: `times[new] = times[old]` followed by
`delete times[old]`, guarded on the old entry existing — set before
delete, exactly as the source (so old = new deletes the entry). -/
def moveMeta (oldK newK : Str) (m : List (Str × β)) : List (Str × β) :=
  match alookup oldK m with
  | some v => aerase oldK (aset newK v m)
  | none => m

/-- `WorkspaceStateStorage.rename`: ensure ancestors of the target,
move a file (`files[new] = entry; delete files[old]` — set before
delete) with its metadata, or move a directory with every nested file
and subdirectory, or fail NotFound. -/
def wsRename (s : WsState) (oldPath newPath : Str) : Except Str Unit × WsState :=
  match getFullPath oldPath with
  | .error e => (.error e, s)
  | .ok oldF =>
    match getFullPath newPath with
    | .error e => (.error e, s)
    | .ok newF =>
      match ensureParentDirs (newF.length + 1) s.dirs newF with
      | none => (.error "ensureParentDirectories does not terminate".data, s)
      | some dirs2 =>
        match alookup oldF s.files with
        | some entry =>
          (.ok (),
            { files := aerase oldF (aset newF entry s.files),
              dirs := dirs2,
              access := moveMeta oldF newF s.access,
              modifiedTimes := moveMeta oldF newF s.modifiedTimes,
              tldrs := moveMeta oldF newF s.tldrs })
        | none =>
          if oldF ∈ dirs2 then
            let dirs3 := if newF ∈ dirs2 then dirs2 else dirs2 ++ [newF]
            let dirs4 := dirs3.filter (fun d => d ≠ oldF)
            let filesToMove := s.files.filter (fun kv => (oldF ++ ['/']) <+: kv.1)
            let st2 := filesToMove.foldl (fun (st : WsState) kv =>
              let nk := newF ++ kv.1.drop oldF.length
              { st with files := aerase kv.1 (aset nk kv.2 st.files),
                        access := moveMeta kv.1 nk st.access,
                        modifiedTimes := moveMeta kv.1 nk st.modifiedTimes,
                        tldrs := moveMeta kv.1 nk st.tldrs })
              { s with dirs := dirs4 }
            let dirsToMove := dirs4.filter (fun d => (oldF ++ ['/']) <+: d)
            let dirs5 := dirsToMove.foldl (fun ds d =>
              let nd := newF ++ d.drop oldF.length
              (if nd ∈ ds then ds else ds ++ [nd]).filter (fun d2 => d2 ≠ d)) dirs4
            (.ok (), { st2 with dirs := dirs5 })
          else
            (.error (renameNotFoundMsg oldPath), s)

/-- The `IMemoryFileInfo` records returned by `listFiles` (dates as
naturals, `isPinned` resolved through the external Pin Tracker). -/
structure IMemoryFileInfo where
  path : Str
  name : Str
  isDirectory : Bool
  size : Nat
  lastAccessed : Nat
  lastModified : Nat
  isPinned : Bool
  tldr : Option Str
deriving DecidableEq, Repr

/-- `Buffer.from(content, 'utf8').length`: the UTF-8 byte length. -/
def utf8Len (s : Str) : Nat := (s.map Char.utf8Size).sum

/-- The listing record of a directory entry (fresh `new Date()` — the
`now` argument — when no recorded time exists). -/
def dirInfo (s : WsState) (pins : Str → Bool) (now : Nat) (d : Str) : IMemoryFileInfo :=
  { path := d, name := posixBasename d, isDirectory := true, size := 0,
    lastAccessed := (alookup d s.access).getD now,
    lastModified := (alookup d s.modifiedTimes).getD now,
    isPinned := pins d, tldr := none }

/-- The listing record of a file entry. -/
def fileInfo (s : WsState) (pins : Str → Bool) (kv : Str × FileEntry) : IMemoryFileInfo :=
  { path := kv.1, name := posixBasename kv.1, isDirectory := false,
    size := utf8Len kv.2.content,
    lastAccessed := (alookup kv.1 s.access).getD kv.2.modified,
    lastModified := (alookup kv.1 s.modifiedTimes).getD kv.2.modified,
    isPinned := pins kv.1, tldr := alookup kv.1 s.tldrs }

/-- `WorkspaceStateStorage.listFiles`: every directory except the root,
then every file, sorted by `localeCompare` on paths. The `localeCompare`
collation is platform ICU behaviour and is passed in as the comparator
`cmp`; JS `Array.prototype.sort` is stable and is modelled by insertion
sort. -/
def wsListFiles (s : WsState) (cmp : Str → Str → Int) (pins : Str → Bool) (now : Nat) :
    List IMemoryFileInfo :=
  List.insertionSort (fun a b => cmp a.path b.path ≤ 0)
    ((s.dirs.filter (fun d => d ≠ MEMORIES_DIR)).map (dirInfo s pins now) ++
      s.files.map (fileInfo s pins))

/-! ### Secret-storage adapter (`SecretMemoryStorage` in `storage.ts`) -/

/-- A parsed entry of the serialized metadata index. -/
structure SecretMeta where
  isDirectory : Bool
  size : Nat
  modified : Nat
  accessed : Nat
deriving DecidableEq, Repr

/-- The secret-storage state: the key-value secret store and the parsed
metadata index blob. -/
structure SecretState where
  store : List (Str × Str)
  meta : List (Str × SecretMeta)
deriving DecidableEq, Repr

/-- Fresh secret storage. -/
def secretInit : SecretState := ⟨[], []⟩

/-- `getSecretKey`: the `agent-memory:file:` prefix, the workspace name
and the `/memories`-rooted path. -/
def secretKey (ws p : Str) : Str :=
  "agent-memory:file:".data ++ ws ++ [':'] ++
    (if MEMORIES_DIR <+: p then p else posixJoin MEMORIES_DIR p)

/-- The parent-materialization loop of `updateFileMetadata`, fuelled
(`posixDirname` strictly shortens rooted paths, so the fuel suffices). -/
def addParentMeta : Nat → List (Str × SecretMeta) → Str → Nat → List (Str × SecretMeta)
  | 0, m, _, _ => m
  | fuel + 1, m, parent, now =>
    if parent = ['/'] ∨ parent = MEMORIES_DIR then m
    else
      let m2 := if (alookup parent m).isSome then m
                else aset parent ⟨true, 0, now, now⟩ m
      addParentMeta fuel m2 (posixDirname parent) now

/-- `updateFileMetadata(fullPath, size)`: materialize parent directory
entries and the root in the metadata index, then record the file entry
with fresh timestamps. -/
def updateFileMetadata (m : List (Str × SecretMeta)) (f : Str) (size : Nat) (now : Nat) :
    List (Str × SecretMeta) :=
  let m1 := addParentMeta (f.length + 1) m (posixDirname f) now
  let m2 := if (alookup MEMORIES_DIR m1).isSome then m1
            else aset MEMORIES_DIR ⟨true, 0, now, now⟩ m1
  aset f ⟨false, size, now, now⟩ m2

/-- `SecretMemoryStorage.create`: store the content secret and update
the metadata index. -/
def secretCreate (ws : Str) (s : SecretState) (p content : Str) (now : Nat) :
    Except Str Unit × SecretState :=
  match getFullPath p with
  | .error e => (.error e, s)
  | .ok f =>
    (.ok (), { store := aset (secretKey ws p) content s.store,
               meta := updateFileMetadata s.meta f (utf8Len content) now })

/-- `SecretMemoryStorage.readRaw`: NotFound when the metadata entry is
missing or a directory; otherwise bump the access time, fetch the
secret, and throw NotFound when the secret is missing — or when the
stored string is empty, since the source tests `if (!CONTENT)` and the
empty string is falsy. -/
def secretReadRaw (ws : Str) (s : SecretState) (p : Str) (now : Nat) :
    Except Str Str × SecretState :=
  match getFullPath p with
  | .error e => (.error e, s)
  | .ok f =>
    match alookup f s.meta with
    | none => (.error (readRawNotFoundMsg p), s)
    | some entry =>
      if entry.isDirectory then (.error (readRawNotFoundMsg p), s)
      else
        let s1 : SecretState := { s with meta := aset f { entry with accessed := now } s.meta }
        match alookup (secretKey ws p) s1.store with
        | none => (.error (readRawNotFoundMsg p), s1)
        | some c => if c = [] then (.error (readRawNotFoundMsg p), s1) else (.ok c, s1)

/-! ### Disk adapter (`DiskMemoryStorage` in the unnamed module) -/

/-- The on-disk tree under `.vscode/memory`: real files and directories
with their `stat` size and mtime; directory children are listed in the
order `readDirectory` yields them (no order is guaranteed by the
platform). -/
inductive DiskNode where
  | file (size : Nat) (mtime : Nat)
  | dir (size : Nat) (mtime : Nat) (children : List (Str × DiskNode))
deriving Repr

/-- The `stat.size` of a node. -/
def DiskNode.statSize : DiskNode → Nat
  | .file sz _ => sz
  | .dir sz _ _ => sz

/-- The `stat.mtime` of a node. -/
def DiskNode.statMtime : DiskNode → Nat
  | .file _ mt => mt
  | .dir _ mt _ => mt

/-- Whether a node is a directory. -/
def DiskNode.isDir : DiskNode → Bool
  | .file _ _ => false
  | .dir _ _ _ => true

/-- The `processDirectory` recursion of `DiskMemoryStorage.listFiles`:
for each entry in `readDirectory` order, push its record and recurse
into directories — depth-first, with no sorting anywhere. Fuelled for
kernel computability; the fuel bounds the recursion depth. -/
def diskProcessDirectory (pins : Str → Bool) :
    Nat → Str → List (Str × DiskNode) → List IMemoryFileInfo
  | 0, _, _ => []
  | _, _, [] => []
  | fuel + 1, dirPath, (name, node) :: rest =>
    let fullPath := posixJoin dirPath name
    let info : IMemoryFileInfo :=
      { path := fullPath, name := name, isDirectory := node.isDir,
        size := node.statSize, lastAccessed := node.statMtime,
        lastModified := node.statMtime, isPinned := pins fullPath, tldr := none }
    match node with
    | .file _ _ => info :: diskProcessDirectory pins fuel dirPath rest
    | .dir _ _ children =>
      (info :: diskProcessDirectory pins fuel fullPath children) ++
        diskProcessDirectory pins fuel dirPath rest

/-- `DiskMemoryStorage.listFiles`: process the tree from the memories
root; the result is returned without any sort. -/
def diskListFiles (pins : Str → Bool) (root : List (Str × DiskNode)) : List IMemoryFileInfo :=
  diskProcessDirectory pins 1000 MEMORIES_DIR root

/-- A concrete total comparator on paths (plain code-point order),
usable as an instantiation of the `localeCompare` parameter. -/
def lexCmpInt (a b : Str) : Int :=
  if lexLe a b then (if lexLe b a then 0 else -1) else 1


/-! ### Theorems -/

example : insertAtLine "a\nb".data 1 "X".data = .ok "a\nX\nb".data := by decide

example : insertAtLine "a\nb".data 2 "X".data = .ok "a\nb\nX".data := by decide

example : (insertAtLine "a\nb".data 3 "X".data).isOk = false := by decide

example : extractLines "a\nX\nb".data 1 1 = "a".data := by decide

example : extractLines "a\nX\nb".data 2 2 = "X".data := by decide

example : extractLines "a\nX\nb".data 2 99 = "X\nb".data := by decide

example : replaceFirst "ab".data "b".data "c".data none = .ok "ac".data := by decide

example : replaceFirst "a".data "a".data "$&$&".data none = .ok "aa".data := by decide

example : splitCountJs "aa".data "aaa".data = 1 := by decide

example : replaceFirst "Hello world, world!".data "world".data "x".data none =
    .error (ambiguousReplaceMsg 2 none) := by decide

/-! ### Lemmas about the JS string model -/

theorem splitOnP_sep_free (p : α → Bool) [DecidableEq α] :
    ∀ (t : List α), ∀ x ∈ t.splitOnP p, ∀ c ∈ x, ¬ p c := by
  intro t
  induction t with
  | nil =>
    intro x hx c hc
    simp only [List.splitOnP_nil, List.mem_singleton] at hx
    subst hx
    simp at hc
  | cons a t ih =>
    intro x hx c hc
    rw [List.splitOnP_cons] at hx
    by_cases hpa : p a
    · rw [if_pos hpa] at hx
      rcases List.mem_cons.mp hx with hx | hx
      · subst hx; simp at hc
      · exact ih x hx c hc
    · rw [if_neg hpa] at hx
      rcases hsp : t.splitOnP p with _ | ⟨h, r⟩
      · exact absurd hsp (List.splitOnP_ne_nil p t)
      · rw [hsp] at hx
        simp only [List.modifyHead] at hx
        rcases List.mem_cons.mp hx with hx | hx
        · subst hx
          rcases List.mem_cons.mp hc with rfl | hc2
          · exact hpa
          · exact ih h (by rw [hsp]; exact List.mem_cons_self _ _) c hc2
        · exact ih x (by rw [hsp]; exact List.mem_cons_of_mem _ hx) c hc

theorem mem_jsSplitChar_sep_free (sep : Char) (t : Str) :
    ∀ x ∈ jsSplitChar sep t, sep ∉ x := by
  intro x hx hmem
  have := splitOnP_sep_free (· == sep) t x hx sep hmem
  simp at this

theorem jsSplitChar_ne_nil (sep : Char) (t : Str) : jsSplitChar sep t ≠ [] :=
  List.splitOnP_ne_nil _ t

theorem jsSplitChar_intercalate (sep : Char) (L : List Str) (hne : L ≠ [])
    (hfree : ∀ l ∈ L, sep ∉ l) :
    jsSplitChar sep (List.intercalate [sep] L) = L :=
  List.splitOn_intercalate L sep hfree hne

theorem countOccAux_nil (old : Str) (f : Nat) : countOccAux old f [] = 0 := by
  cases f <;> rfl

theorem countOccAux_irrel (old : Str) :
    ∀ (f1 f2 : Nat) (t : Str), t.length ≤ f1 → t.length ≤ f2 →
      countOccAux old f1 t = countOccAux old f2 t := by
  intro f1
  induction f1 with
  | zero =>
    intro f2 t h1 _
    have ht : t = [] := List.eq_nil_of_length_eq_zero (Nat.le_zero.mp h1)
    subst ht
    simp [countOccAux_nil]
  | succ f ih =>
    intro f2 t h1 h2
    cases t with
    | nil => simp [countOccAux_nil]
    | cons c tt =>
      cases f2 with
      | zero => simp at h2
      | succ f2x =>
        simp only [countOccAux]
        by_cases hc : old ≠ [] ∧ old.isPrefixOf (c :: tt)
        · rw [if_pos hc, if_pos hc]
          have hold : 0 < old.length := List.length_pos.mpr hc.1
          have hlen : ((c :: tt).drop old.length).length ≤ f := by
            simp only [List.length_drop, List.length_cons]
            simp only [List.length_cons] at h1
            omega
          have hlen2 : ((c :: tt).drop old.length).length ≤ f2x := by
            simp only [List.length_drop, List.length_cons]
            simp only [List.length_cons] at h2
            omega
          rw [ih f2x _ hlen hlen2]
        · rw [if_neg hc, if_neg hc]
          refine ih f2x tt ?_ ?_
          · simp only [List.length_cons] at h1; omega
          · simp only [List.length_cons] at h2; omega

theorem countOcc_nil (old : Str) : countOcc old [] = 0 := rfl

theorem countOcc_cons_pos (old : Str) (c : Char) (t : Str)
    (h : old ≠ [] ∧ old.isPrefixOf (c :: t)) :
    countOcc old (c :: t) = countOcc old ((c :: t).drop old.length) + 1 := by
  have hold : 0 < old.length := List.length_pos.mpr h.1
  show countOccAux old (t.length + 1) (c :: t) = _
  simp only [countOccAux, if_pos h]
  congr 1
  apply countOccAux_irrel
  · simp only [List.length_drop, List.length_cons]; omega
  · exact le_rfl

theorem countOcc_cons_neg (old : Str) (c : Char) (t : Str)
    (h : ¬ (old ≠ [] ∧ old.isPrefixOf (c :: t))) :
    countOcc old (c :: t) = countOcc old t := by
  show countOccAux old (t.length + 1) (c :: t) = _
  simp only [countOccAux, if_neg h]
  apply countOccAux_irrel
  · exact le_rfl
  · exact le_rfl

theorem splitFirst_eq (old : Str) :
    ∀ (t p s : Str), splitFirst old t = some (p, s) →
      t = p ++ old ++ s ∧ ∀ p2 s2, t = p2 ++ old ++ s2 → p.length ≤ p2.length := by
  intro t
  induction t with
  | nil =>
    intro p s h
    simp only [splitFirst] at h
    split at h
    · next hold =>
      simp only [Option.some.injEq, Prod.mk.injEq] at h
      obtain ⟨rfl, rfl⟩ := h
      subst hold
      exact ⟨rfl, fun p2 s2 _ => by simp⟩
    · simp at h
  | cons c t ih =>
    intro p s h
    simp only [splitFirst] at h
    by_cases hpre : old.isPrefixOf (c :: t)
    · rw [if_pos hpre] at h
      simp only [Option.some.injEq, Prod.mk.injEq] at h
      obtain ⟨rfl, rfl⟩ := h
      have hp : old <+: (c :: t) := List.isPrefixOf_iff_prefix.mp hpre
      obtain ⟨r, hr⟩ := hp
      constructor
      · have hdrop : (c :: t).drop old.length = r := by
          rw [← hr]; exact List.drop_left old r
        rw [hdrop, ← hr]
        simp
      · intro p2 s2 _; simp
    · rw [if_neg hpre] at h
      rcases hsp : splitFirst old t with _ | ⟨p1, s1⟩
      · rw [hsp] at h; simp at h
      · rw [hsp] at h
        simp only [Option.some.injEq, Prod.mk.injEq] at h
        obtain ⟨rfl, rfl⟩ := h
        obtain ⟨ht, hmin⟩ := ih p1 s1 hsp
        constructor
        · simpa using congrArg (c :: ·) ht
        · intro p2 s2 he
          cases p2 with
          | nil =>
            exfalso
            apply hpre
            apply List.isPrefixOf_iff_prefix.mpr
            exact ⟨s2, by simpa using he.symm⟩
          | cons c2 p2x =>
            have he2 : t = p2x ++ old ++ s2 := by
              have hconj : c = c2 ∧ t = p2x ++ (old ++ s2) := by simpa using he
              rw [List.append_assoc]
              exact hconj.2
            simpa using Nat.succ_le_succ (hmin p2x s2 he2)

theorem splitFirst_isSome_of_countOcc (old : Str) :
    ∀ (t : Str), countOcc old t ≠ 0 → (splitFirst old t).isSome := by
  intro t
  induction t with
  | nil => intro h; exact absurd (countOcc_nil old) h
  | cons c t ih =>
    intro h
    simp only [splitFirst]
    by_cases hpre : old.isPrefixOf (c :: t)
    · rw [if_pos hpre]; rfl
    · rw [if_neg hpre]
      rw [countOcc_cons_neg old c t (fun hh => hpre hh.2)] at h
      have hs := ih h
      rcases hsp : splitFirst old t with _ | ⟨p1, s1⟩
      · rw [hsp] at hs; simp at hs
      · simp [hsp]

theorem getSubstitution_no_dollar (matched before after : Str) :
    ∀ (new : Str), '$' ∉ new → getSubstitution matched before after new = new
  | [], _ => rfl
  | [_], _ => rfl
  | c :: d :: r2, h => by
    have hc : c ≠ '$' := fun hh => h (hh ▸ List.mem_cons_self _ _)
    have hr : '$' ∉ (d :: r2) := fun hh => h (List.mem_cons_of_mem _ hh)
    simp only [getSubstitution, if_neg hc]
    rw [getSubstitution_no_dollar matched before after (d :: r2) hr]

/-- Successful branch of `insertAtLine` for an in-range line number. -/
theorem insertAtLine_ok_of_le (text insertText : Str) (n : Int)
    (h0 : 0 ≤ n) (h1 : n ≤ lineCount text) :
    insertAtLine text n insertText =
      .ok (List.intercalate ['\n'] (spliceAt n.toNat insertText (jsSplitChar '\n' text))) := by
  simp only [insertAtLine]
  rw [if_neg]
  rw [not_or]
  exact ⟨not_lt.mpr h0, not_lt.mpr h1⟩

/-- C8: `insertAtLine(text, lineNumber, insertText)` throws `InvalidLine`
exactly when `lineNumber < 0` or `lineNumber > lineCount` (so appending
at `lineNumber = lineCount` is valid); for every in-range `lineNumber`
it returns the text with `insertText` spliced in as a new line at that
0-based index. -/
theorem insertAtLine_boundary (text insertText : Str) (n : Int) :
    ((insertAtLine text n insertText).isOk = false ↔ (n < 0 ∨ lineCount text < n)) ∧
    (0 ≤ n → n ≤ lineCount text →
      insertAtLine text n insertText =
        .ok (List.intercalate ['\n'] (spliceAt n.toNat insertText (jsSplitChar '\n' text)))) := by
  constructor
  · simp only [insertAtLine, lineCount]
    by_cases h : n < 0 ∨ ((jsSplitChar '\n' text).length : Int) < n
    · rw [if_pos h]
      exact ⟨fun _ => h, fun _ => rfl⟩
    · rw [if_neg h]
      exact ⟨fun hh => by simp [Except.isOk, Except.toBool] at hh, fun hh => absurd hh h⟩
  · exact insertAtLine_ok_of_le text insertText n

/-- Witness: `insertAtLine_boundary` applied at concrete inputs, showing
a rejected out-of-range insert and an accepted append at the line
count. -/
theorem insertAtLine_boundary_witness :
    (insertAtLine "a\nb".data 3 "X".data).isOk = false ∧
    insertAtLine "a\nb".data 2 "X".data = .ok "a\nb\nX".data := by
  constructor
  · exact (insertAtLine_boundary "a\nb".data "X".data 3).1.mpr (by decide)
  · rw [(insertAtLine_boundary "a\nb".data "X".data 2).2 (by decide) (by decide)]
    decide

/-- C2 counterexample: with `newStr = "$&$&"`, which occurs as a single
occurrence of `oldStr = "a"` in `text = "a"`, `replaceFirst` does not
substitute `newStr` literally: JS `String.replace` expands the `$&`
escapes to the match, producing `"aa"`. -/
theorem replaceFirst_dollar_counterexample :
    splitCountJs "a".data "a".data = 1 ∧
    replaceFirst "a".data "a".data "$&$&".data none = .ok "aa".data ∧
    "aa".data ≠ "$&$&".data := by decide

/-- C2 (amended): for `newStr` without `$` (JS replace interprets
dollar escapes), with occurrences counted non-overlapping left-to-right
as the source computes them via `split`: zero occurrences throw
NotFound; exactly one occurrence is substituted (the earliest match);
two or more occurrences throw Ambiguous with a message stating the
exact occurrence count and the path when supplied. -/
theorem replaceFirst_spec (text old new : Str) (path : Option Str) (hnd : '$' ∉ new) :
    (splitCountJs old text = 0 → replaceFirst text old new path = .error (notFoundReplaceMsg path)) ∧
    (splitCountJs old text = 1 →
      ∃ p s, text = p ++ old ++ s ∧ (∀ p2 s2, text = p2 ++ old ++ s2 → p.length ≤ p2.length) ∧
        replaceFirst text old new path = .ok (p ++ new ++ s)) ∧
    (∀ k : Int, splitCountJs old text = k → 2 ≤ k →
      replaceFirst text old new path = .error (ambiguousReplaceMsg k path) ∧
      (toString k).data <:+: ambiguousReplaceMsg k path ∧
      ∀ fp, path = some fp → fp <:+: ambiguousReplaceMsg k path) := by
  refine ⟨?_, ?_, ?_⟩
  · intro h
    simp [replaceFirst, h]
  · intro h
    have hsome : (splitFirst old text).isSome := by
      by_cases hold : old = []
      · subst hold
        cases text with
        | nil => simp [splitCountJs] at h
        | cons c t => simp [splitFirst]
      · apply splitFirst_isSome_of_countOcc
        intro hc
        rw [splitCountJs, if_neg hold, hc] at h
        simp at h
    rcases hsf : splitFirst old text with _ | ⟨p, s⟩
    · rw [hsf] at hsome; simp at hsome
    · obtain ⟨ht, hmin⟩ := splitFirst_eq old text p s hsf
      refine ⟨p, s, ht, hmin, ?_⟩
      simp only [replaceFirst, h]
      norm_num
      simp only [jsStringReplace, hsf]
      rw [getSubstitution_no_dollar old p s new hnd]
      exact List.append_assoc p new s
  · intro k hk h2
    have hne0 : ¬ (k = 0) := by omega
    have hgt : 1 < k := by omega
    refine ⟨?_, ?_, ?_⟩
    · simp only [replaceFirst, hk]
      rw [if_neg hne0, if_pos hgt]
    · exact ⟨"Text appears ".data,
        " times".data ++ fileContextMsg path ++
          ". Must be unique. Use \x27view\x27 to see all occurrences and provide more context to make the match unique.".data,
        by simp [ambiguousReplaceMsg]⟩
    · intro fp hfp
      subst hfp
      exact ⟨"Text appears ".data ++ (toString k).data ++ " times".data ++ " in ".data,
        ". Must be unique. Use \x27view\x27 to see all occurrences and provide more context to make the match unique.".data,
        by simp [ambiguousReplaceMsg, fileContextMsg]⟩

/-- Witness: `replaceFirst_spec` applied at a concrete unique
occurrence. -/
theorem replaceFirst_spec_witness :
    ∃ p s, "ab".data = p ++ "b".data ++ s ∧
      (∀ p2 s2, "ab".data = p2 ++ "b".data ++ s2 → p.length ≤ p2.length) ∧
      replaceFirst "ab".data "b".data "c".data (some "/memories/f.txt".data) =
        .ok (p ++ "c".data ++ s) :=
  (replaceFirst_spec "ab".data "b".data "c".data (some "/memories/f.txt".data)
    (by decide)).2.1 (by decide)

/-- C3 counterexample: inserting `"X"` at 0-based line 1 of `"a\nb"` and
then calling `extractLines` at position 1 returns the line before the
insertion point (`extractLines` positions are 1-based), not the inserted
line. -/
theorem insert_extract_counterexample :
    insertAtLine "a\nb".data 1 "X".data = .ok "a\nX\nb".data ∧
    extractLines "a\nX\nb".data 1 1 = "a".data ∧
    "a".data ≠ "X".data := by decide

/-- C3 (amended): for every newline-free `line` and every valid 0-based
`n` in `[0, lineCount]`, inserting at `n` and extracting at the 1-based
position `n + 1` returns `line` (insert indices are 0-based while
extract positions are 1-based, so the inserted line sits at position
`n + 1`). -/
theorem insert_extract_roundtrip (text line : Str) (n : Int)
    (h0 : 0 ≤ n) (h1 : n ≤ lineCount text) (hnl : '\n' ∉ line) :
    ∃ r, insertAtLine text n line = .ok r ∧ extractLines r (n + 1) (n + 1) = line := by
  have hco : lineCount text = ((jsSplitChar '\n' text).length : Int) := rfl
  have hkL : n.toNat ≤ (jsSplitChar '\n' text).length := by omega
  refine ⟨List.intercalate ['\n'] (spliceAt n.toNat line (jsSplitChar '\n' text)),
    insertAtLine_ok_of_le text line n h0 h1, ?_⟩
  set L := jsSplitChar '\n' text with hL
  set k := n.toNat with hk
  have hsplit : jsSplitChar '\n' (List.intercalate ['\n'] (spliceAt k line L)) =
      spliceAt k line L := by
    apply jsSplitChar_intercalate
    · simp [spliceAt]
    · intro l hl
      simp only [spliceAt, List.mem_append, List.mem_cons] at hl
      rcases hl with hl | hl | hl
      · exact mem_jsSplitChar_sep_free '\n' text l (List.mem_of_mem_take hl)
      · subst hl; exact hnl
      · exact mem_jsSplitChar_sep_free '\n' text l (List.mem_of_mem_drop hl)
  simp only [extractLines, hsplit]
  have hlen : (spliceAt k line L).length = L.length + 1 := by
    simp only [spliceAt, List.length_append, List.length_cons, List.length_take,
      List.length_drop]
    omega
  have hidx1 : jsSliceIndex (spliceAt k line L).length (n + 1 - 1) = k := by
    simp only [jsSliceIndex, hlen]
    rw [if_neg (by omega)]
    have hh : (n + 1 - 1).toNat = k := by omega
    rw [hh]
    omega
  have hidx2 : jsSliceIndex (spliceAt k line L).length (n + 1) = k + 1 := by
    simp only [jsSliceIndex, hlen]
    rw [if_neg (by omega)]
    have hh : (n + 1).toNat = k + 1 := by omega
    rw [hh]
    omega
  simp only [jsSlice, hidx1, hidx2]
  have hlen2 : (L.take k ++ [line]).length = k + 1 := by
    simp only [List.length_append, List.length_cons, List.length_take, List.length_nil]
    omega
  have htake : (spliceAt k line L).take (k + 1) = L.take k ++ [line] := by
    have hsp : spliceAt k line L = (L.take k ++ [line]) ++ L.drop k := by
      simp [spliceAt]
    rw [hsp, List.take_left' hlen2]
  rw [htake, List.drop_left' (by simp only [List.length_take]; omega)]
  simp [List.intercalate]

/-- Witness: `insert_extract_roundtrip` applied at a concrete text,
line and index. -/
theorem insert_extract_roundtrip_witness :
    ∃ r, insertAtLine "a\nb".data 1 "X".data = .ok r ∧
      extractLines r (1 + 1) (1 + 1) = "X".data :=
  insert_extract_roundtrip "a\nb".data "X".data 1 (by decide) (by decide) (by decide)

example : posixNormalize "/memories//".data = "/memories/".data := by decide

example : posixNormalize "/memories/../etc/passwd".data = "/etc/passwd".data := by decide

example : posixNormalize "a/..".data = ".".data := by decide

example : posixNormalize "../../a".data = "../../a".data := by decide

example : posixNormalize "".data = ".".data := by decide

example : posixNormalize "/memories/./file.txt".data = "/memories/file.txt".data := by decide

example : posixNormalize "/memories//double//slash.txt".data = "/memories/double/slash.txt".data := by decide

example : decodeURIComponentOr "/memories/%2e%2e/x".data = "/memories/../x".data := by decide

example : decodeURIComponentOr "/memories/a%2".data = "/memories/a%2".data := by decide

example : posixDirname "/memories/a.txt".data = "/memories".data := by decide

example : posixDirname "/memories".data = "/".data := by decide

example : posixDirname "/a//b".data = "/a/".data := by decide

example : posixDirname "abc".data = ".".data := by decide

example : posixDirname "//a".data = "//".data := by decide

example : posixBasename "/memories/a/b".data = "b".data := by decide

example : posixBasename "/".data = "".data := by decide

example : (validateMemoryPath "/etc/passwd".data).isOk = false := by decide

example : (validateMemoryPath "/memories/../etc/passwd".data).isOk = false := by decide

example : (validateMemoryPath "/memories/%2e%2e/etc/passwd".data).isOk = false := by decide

example : validateMemoryPath "/memories/folder/../file.txt".data = .ok () := by decide

example : (validateMemoryPath ("/memories/te".data ++ [Char.ofNat 0] ++ "st.txt".data)).isOk = false := by decide

example : getFullPath "/memories/a.txt".data = .ok "/memories/a.txt".data := by decide

example : getFullPath "/memories/a/".data = .ok "/memories/a".data := by decide

/-- C9: `validateMemoryPath` accepts `/memoriesfoo` although that path
is neither the memories root nor nested inside it — the scope check
tests a string prefix rather than a path-segment boundary. -/
theorem validate_accepts_sibling_prefix :
    validateMemoryPath "/memoriesfoo".data = .ok () ∧
    ¬ underMemoriesRoot "/memoriesfoo".data := by decide

/-- C4 counterexample: `/memories//` is accepted by the validator, but
`normalizeMemoryPath` strips only a single trailing separator, so
normalizing twice differs from normalizing once. -/
theorem normalize_not_idempotent_counterexample :
    validateMemoryPath "/memories//".data = .ok () ∧
    normalizeMemoryPath (normalizeMemoryPath "/memories//".data) ≠
      normalizeMemoryPath "/memories//".data := by decide

/-! ### Lemmas about percent-decoding and path normalization -/

theorem percentDecode_cons_not_pct (c : Char) (r : List Char) (hc : c ≠ '%') :
    percentDecode (c :: r) = (percentDecode r).map (fun d => c :: d) := by
  rcases r with _ | ⟨c1, _ | ⟨c2, r2⟩⟩
  · rw [percentDecode.eq_3 c [] (by intro _ _ _ h; cases h), if_neg hc]
  · rw [percentDecode.eq_3 c [c1] (by intro _ _ _ h; simp at h), if_neg hc]
  · rw [percentDecode.eq_2, if_neg hc]

theorem percentDecode_pct_one (c1 : Char) : percentDecode ['%', c1] = none := by
  rw [percentDecode.eq_3 '%' [c1] (by intro _ _ _ h; simp at h), if_pos rfl]

theorem percentDecode_pct (c1 c2 : Char) (r2 : List Char) :
    percentDecode ('%' :: c1 :: c2 :: r2) =
      (if isHexDigit c1 ∧ isHexDigit c2 then
        (percentDecode r2).map (fun d => Char.ofNat (16 * hexVal c1 + hexVal c2) :: d)
      else none) := by
  rw [percentDecode.eq_2, if_pos rfl]

theorem percentDecode_append_slash : ∀ (q : Str),
    percentDecode (q ++ ['/']) = (percentDecode q).map (fun d => d ++ ['/'])
  | [] => by decide
  | c :: r => by
    by_cases hc : c = '%'
    · subst hc
      match r with
      | [] => decide
      | [c1] =>
        rw [show ('%' :: [c1]) ++ ['/'] = '%' :: c1 :: '/' :: [] from rfl]
        rw [percentDecode_pct c1 '/' []]
        rw [if_neg (fun h => absurd h.2 (by decide))]
        rw [percentDecode_pct_one c1]
        rfl
      | c1 :: c2 :: r2 =>
        rw [show ('%' :: c1 :: c2 :: r2) ++ ['/'] = '%' :: c1 :: c2 :: (r2 ++ ['/']) from rfl]
        rw [percentDecode_pct c1 c2 (r2 ++ ['/']), percentDecode_pct c1 c2 r2]
        by_cases hh : isHexDigit c1 ∧ isHexDigit c2
        · rw [if_pos hh, if_pos hh, percentDecode_append_slash r2]
          cases percentDecode r2 <;> simp
        · rw [if_neg hh, if_neg hh]; rfl
    · rw [show (c :: r) ++ ['/'] = c :: (r ++ ['/']) from rfl]
      rw [percentDecode_cons_not_pct c (r ++ ['/']) hc, percentDecode_cons_not_pct c r hc,
        percentDecode_append_slash r]
      cases percentDecode r <;> simp

theorem percentDecode_cons_ne_nil (c : Char) (r : Str) (d : Str)
    (hd : percentDecode (c :: r) = some d) : d ≠ [] := by
  by_cases hc : c = '%'
  · subst hc
    rcases r with _ | ⟨c1, _ | ⟨c2, r2⟩⟩
    · rw [show percentDecode ['%'] = none from by decide] at hd
      simp at hd
    · rw [percentDecode_pct_one c1] at hd
      simp at hd
    · rw [percentDecode_pct c1 c2 r2] at hd
      by_cases hh : isHexDigit c1 ∧ isHexDigit c2
      · rw [if_pos hh] at hd
        rcases hmap : percentDecode r2 with _ | d2 <;> rw [hmap] at hd
        · simp at hd
        · simp at hd
          rw [← hd]; simp
      · rw [if_neg hh] at hd; simp at hd
  · rw [percentDecode_cons_not_pct c r hc] at hd
    rcases hmap : percentDecode r with _ | d2 <;> rw [hmap] at hd
    · simp at hd
    · simp at hd
      rw [← hd]; simp

theorem decodeOr_append_slash (q : Str) :
    decodeURIComponentOr (q ++ ['/']) = decodeURIComponentOr q ++ ['/'] := by
  unfold decodeURIComponentOr
  rw [percentDecode_append_slash q]
  cases percentDecode q <;> simp

theorem decodeOr_ne_nil (q : Str) (hq : q ≠ []) : decodeURIComponentOr q ≠ [] := by
  unfold decodeURIComponentOr
  rcases hpd : percentDecode q with _ | d
  · exact hq
  · cases q with
    | nil => exact absurd rfl hq
    | cons c r => exact percentDecode_cons_ne_nil c r d hpd

theorem splitOnP_append_sep (p : α → Bool) (sep : α) (hsep : p sep) :
    ∀ (x : List α), (x ++ [sep]).splitOnP p = x.splitOnP p ++ [[]]
  | [] => by
    rw [List.nil_append, List.splitOnP_nil]
    rw [show ([sep] : List α) = sep :: [] from rfl, List.splitOnP_cons, if_pos hsep,
      List.splitOnP_nil]
    rfl
  | c :: t => by
    rw [List.cons_append, List.splitOnP_cons, List.splitOnP_cons]
    by_cases hc : p c
    · rw [if_pos hc, if_pos hc, splitOnP_append_sep p sep hsep t]
      rfl
    · rw [if_neg hc, if_neg hc, splitOnP_append_sep p sep hsep t]
      rcases hsp : t.splitOnP p with _ | ⟨h, r⟩
      · exact absurd hsp (List.splitOnP_ne_nil p t)
      · simp [List.modifyHead]

theorem splitOn_append_sep (sep : Char) (x : Str) :
    (x ++ [sep]).splitOn sep = x.splitOn sep ++ [[]] :=
  splitOnP_append_sep (· == sep) sep (by simp) x

theorem pathSegments_append_slash (x : Str) :
    pathSegments (x ++ ['/']) = pathSegments x := by
  unfold pathSegments
  rw [splitOn_append_sep '/' x, List.filter_append]
  simp

theorem resolveStep_mem (ab : Bool) (acc : List Str) (seg : Str) :
    ∀ x ∈ resolveStep ab acc seg, x ∈ acc ∨ x = seg ∨ x = ['.', '.'] := by
  intro x hx
  unfold resolveStep at hx
  by_cases h1 : seg = ['.', '.']
  · rw [if_pos h1] at hx
    by_cases h2 : (ab : Prop)
    · rw [if_pos h2] at hx
      exact Or.inl (List.mem_of_mem_dropLast hx)
    · rw [if_neg h2] at hx
      by_cases h3 : acc ≠ [] ∧ acc.getLast? ≠ some ['.', '.']
      · rw [if_pos h3] at hx
        exact Or.inl (List.mem_of_mem_dropLast hx)
      · rw [if_neg h3] at hx
        rcases List.mem_append.mp hx with h | h
        · exact Or.inl h
        · exact Or.inr (Or.inr (by simpa using h))
  · rw [if_neg h1] at hx
    rcases List.mem_append.mp hx with h | h
    · exact Or.inl h
    · exact Or.inr (Or.inl (by simpa using h))

theorem resolveSegs_mem (ab : Bool) (segs : List Str) :
    ∀ x ∈ resolveSegs ab segs, x ∈ segs ∨ x = ['.', '.'] := by
  suffices h : ∀ acc, ∀ x ∈ segs.foldl (resolveStep ab) acc, x ∈ acc ∨ x ∈ segs ∨ x = ['.', '.'] by
    intro x hx
    rcases h [] x hx with h1 | h1 | h1
    · simp at h1
    · exact Or.inl h1
    · exact Or.inr h1
  induction segs with
  | nil =>
    intro acc x hx
    exact Or.inl (by simpa using hx)
  | cons s t ih =>
    intro acc x hx
    simp only [List.foldl_cons] at hx
    rcases ih (resolveStep ab acc s) x hx with h1 | h1 | h1
    · rcases resolveStep_mem ab acc s x h1 with h2 | h2 | h2
      · exact Or.inl h2
      · exact Or.inr (Or.inl (by simp [h2]))
      · exact Or.inr (Or.inr h2)
    · exact Or.inr (Or.inl (List.mem_cons_of_mem _ h1))
    · exact Or.inr (Or.inr h1)

theorem pathSegments_good (p : Str) : ∀ s ∈ pathSegments p, s ≠ [] ∧ '/' ∉ s := by
  intro s hs
  have hm := List.mem_filter.mp hs
  refine ⟨?_, mem_jsSplitChar_sep_free '/' p s hm.1⟩
  have := hm.2
  simp only [decide_eq_true_eq] at this
  exact this.1

theorem resolved_good (ab : Bool) (p : Str) :
    ∀ s ∈ resolveSegs ab (pathSegments p), s ≠ [] ∧ '/' ∉ s := by
  intro s hs
  rcases resolveSegs_mem ab _ s hs with h | h
  · exact pathSegments_good p s h
  · subst h
    exact ⟨by simp, by decide⟩

theorem intercalate_cons_ne (sep a : Str) (b : Str) (l : List Str) :
    List.intercalate sep (a :: b :: l) = a ++ sep ++ List.intercalate sep (b :: l) := by
  simp [List.intercalate, List.intersperse_cons_cons, List.append_assoc]

theorem intercalate_head (a : Str) (l : List Str) (ha : a ≠ []) :
    (List.intercalate ['/'] (a :: l)).head? = a.head? := by
  cases l with
  | nil =>
    simp [List.intercalate]
  | cons b t =>
    rw [intercalate_cons_ne]
    cases a with
    | nil => exact absurd rfl ha
    | cons c r => rfl

theorem core_head_ne_slash (ab : Bool) (p : Str)
    (hcz : List.intercalate ['/'] (resolveSegs ab (pathSegments p)) ≠ []) :
    ∃ c, (List.intercalate ['/'] (resolveSegs ab (pathSegments p))).head? = some c ∧ c ≠ '/' := by
  rcases hres : resolveSegs ab (pathSegments p) with _ | ⟨s0, rest⟩
  · rw [hres] at hcz
    simp [List.intercalate] at hcz
  · have hgood := resolved_good ab p s0 (by rw [hres]; exact List.mem_cons_self _ _)
    rcases s0 with _ | ⟨c, t⟩
    · exact absurd rfl hgood.1
    · refine ⟨c, ?_, fun hc => hgood.2 (by subst hc; exact List.mem_cons_self _ _)⟩
      rw [intercalate_head (c :: t) rest hgood.1]
      rfl

theorem containsSeq_correct [DecidableEq α] (pat : List α) :
    ∀ (l : List α), containsSeq pat l = true ↔ pat <:+: l := by
  intro l
  induction l with
  | nil =>
    simp [containsSeq]
  | cons c t ih =>
    simp only [containsSeq, Bool.or_eq_true, List.isPrefixOf_iff_prefix, ih]
    exact (List.infix_cons_iff).symm

theorem head?_append_of_ne_nil (x y : Str) (hx : x ≠ []) : (x ++ y).head? = x.head? := by
  cases x with
  | nil => exact absurd rfl hx
  | cons c t => rfl

theorem posixNormalize_of_ne_nil (x : Str) (hx : x ≠ []) :
    posixNormalize x =
      posixNormalizeCore (x.head? == some '/') (x.getLast? == some '/') (pathSegments x) := by
  unfold posixNormalize
  rw [if_neg hx]

theorem posixNormalize_append_slash (x : Str) (hx : x ≠ []) :
    posixNormalize (x ++ ['/']) =
      posixNormalizeCore (x.head? == some '/') true (pathSegments x) := by
  rw [posixNormalize_of_ne_nil (x ++ ['/']) (by simp)]
  rw [head?_append_of_ne_nil x ['/'] hx, List.getLast?_concat, pathSegments_append_slash]
  simp

theorem validateMemoryPath_ok_iff (p : Str) :
    validateMemoryPath p = .ok () ↔
      (MEMORIES_DIR.isPrefixOf (posixNormalize (decodeURIComponentOr p)) = true ∧
       containsSeq "..".data (posixNormalize (decodeURIComponentOr p)) = false ∧
       p.any (fun c => c.toNat ≤ 31) = false) := by
  unfold validateMemoryPath
  by_cases h1 : MEMORIES_DIR.isPrefixOf (posixNormalize (decodeURIComponentOr p)) = true
  · rw [if_neg (by simp [h1])]
    by_cases h2 : containsSeq "..".data (posixNormalize (decodeURIComponentOr p)) = true
    · rw [if_pos h2]
      simp [h2]
    · rw [if_neg h2]
      by_cases h3 : p.any (fun c => c.toNat ≤ 31) = true
      · rw [if_pos h3]
        simp [h3]
      · rw [if_neg h3]
        rw [Bool.not_eq_true] at h2 h3
        simp [h1, h2, h3]
  · rw [if_pos h1]
    simp [h1]

theorem posixNormalizeCore_facts (ab tq : Bool) (x : Str)
    (hpre : MEMORIES_DIR.isPrefixOf (posixNormalizeCore ab true (pathSegments x)) = true)
    (hdots : containsSeq "..".data (posixNormalizeCore ab true (pathSegments x)) = false) :
    MEMORIES_DIR.isPrefixOf (posixNormalizeCore ab tq (pathSegments x)) = true ∧
    containsSeq "..".data (posixNormalizeCore ab tq (pathSegments x)) = false := by
  unfold posixNormalizeCore at hpre hdots ⊢
  by_cases hcz : List.intercalate ['/'] (resolveSegs ab (pathSegments x)) = []
  · exfalso
    rw [if_pos hcz] at hpre
    cases ab with
    | false =>
      rw [if_neg (by simp), if_pos rfl] at hpre
      exact absurd hpre (by decide)
    | true =>
      rw [if_pos rfl] at hpre
      exact absurd hpre (by decide)
  · rw [if_neg hcz] at hpre hdots
    rw [if_neg hcz]
    cases ab with
    | false =>
      exfalso
      rw [if_neg (by simp), if_pos rfl] at hpre
      obtain ⟨c, hc, hcne⟩ := core_head_ne_slash false x hcz
      rw [List.isPrefixOf_iff_prefix] at hpre
      obtain ⟨t, ht⟩ := hpre
      have h1 : (List.intercalate ['/'] (resolveSegs false (pathSegments x)) ++ ['/']).head? =
          some '/' := by
        rw [← ht, show MEMORIES_DIR = '/' :: "memories".data from rfl, List.cons_append]
        rfl
      rw [head?_append_of_ne_nil _ _ hcz, hc] at h1
      exact hcne (by simpa using h1)
    | true =>
      rw [if_pos rfl] at hpre hdots
      rw [if_pos rfl]
      cases tq with
      | true =>
        rw [if_pos rfl] at hpre hdots ⊢
        exact ⟨hpre, hdots⟩
      | false =>
        rw [if_pos rfl] at hpre hdots
        rw [if_neg (by simp), List.append_nil]
        have hMD : MEMORIES_DIR <+:
            ('/' :: List.intercalate ['/'] (resolveSegs true (pathSegments x))) ++ ['/'] :=
          List.isPrefixOf_iff_prefix.mp hpre
        constructor
        · rw [List.isPrefixOf_iff_prefix]
          by_cases hlen : MEMORIES_DIR.length ≤
              ('/' :: List.intercalate ['/'] (resolveSegs true (pathSegments x))).length
          · exact List.prefix_of_prefix_length_le hMD (List.prefix_append _ _) hlen
          · exfalso
            have heq : MEMORIES_DIR =
                ('/' :: List.intercalate ['/'] (resolveSegs true (pathSegments x))) ++ ['/'] := by
              apply hMD.eq_of_length
              have h2 := hMD.length_le
              simp only [List.length_append, List.length_cons, List.length_nil] at h2 ⊢
              simp only [List.length_cons] at hlen
              omega
            have h1 : MEMORIES_DIR.getLast? = some 's' := by decide
            rw [heq, List.getLast?_concat] at h1
            simp at h1
        · by_contra hcc
          have hcc2 : containsSeq "..".data
              ('/' :: List.intercalate ['/'] (resolveSegs true (pathSegments x))) = true := by
            cases hb : containsSeq "..".data
                ('/' :: List.intercalate ['/'] (resolveSegs true (pathSegments x))) with
            | true => rfl
            | false => exact absurd hb hcc
          have hinf := (containsSeq_correct _ _).mp hcc2
          have hinf2 : "..".data <:+:
              ('/' :: List.intercalate ['/'] (resolveSegs true (pathSegments x))) ++ ['/'] := by
            obtain ⟨s1, t1, hst⟩ := hinf
            exact ⟨s1, t1 ++ ['/'], by rw [← hst]; simp⟩
          have hcc3 := (containsSeq_correct "..".data _).mpr hinf2
          rw [hdots] at hcc3
          exact Bool.false_ne_true hcc3

theorem validate_of_validate_dropSlash (q : Str) (hq : q ≠ [])
    (hv : validateMemoryPath (q ++ ['/']) = .ok ()) :
    validateMemoryPath q = .ok () := by
  rw [validateMemoryPath_ok_iff] at hv ⊢
  obtain ⟨hpre, hdots, hctl⟩ := hv
  have hxne : decodeURIComponentOr q ≠ [] := decodeOr_ne_nil q hq
  rw [decodeOr_append_slash q, posixNormalize_append_slash _ hxne] at hpre hdots
  rw [posixNormalize_of_ne_nil _ hxne]
  have hfacts := posixNormalizeCore_facts ((decodeURIComponentOr q).head? == some '/')
      ((decodeURIComponentOr q).getLast? == some '/') (decodeURIComponentOr q) hpre hdots
  refine ⟨hfacts.1, hfacts.2, ?_⟩
  rw [List.any_eq_false] at hctl ⊢
  intro c hc
  exact hctl c (List.mem_append.mpr (Or.inl hc))

/-- C4 (amended): for all valid paths p, validate(normalize(p)) does not
throw; and normalize(normalize(p)) = normalize(p) for every p that does
not end in a doubled separator — normalizeMemoryPath strips exactly one
trailing separator per call, so a valid path such as "/memories//"
needs two passes and refutes unrestricted idempotence. -/
theorem validate_normalize_spec (p : Str) (hv : validateMemoryPath p = .ok ()) :
    validateMemoryPath (normalizeMemoryPath p) = .ok () ∧
    (¬ ("//".data <:+ p) →
      normalizeMemoryPath (normalizeMemoryPath p) = normalizeMemoryPath p) := by
  constructor
  · by_cases hcond : p.getLast? = some '/' ∧ p ≠ ['/']
    · have hrec : p.dropLast ++ ['/'] = p :=
        List.dropLast_append_getLast? '/' (by rw [Option.mem_def]; exact hcond.1)
      have hql : p.dropLast ≠ [] := by
        intro h0
        apply hcond.2
        rw [← hrec, h0]
        rfl
      rw [normalizeMemoryPath, if_pos hcond]
      apply validate_of_validate_dropSlash _ hql
      rw [hrec]
      exact hv
    · rw [normalizeMemoryPath, if_neg hcond]
      exact hv
  · intro hns
    by_cases hcond : p.getLast? = some '/' ∧ p ≠ ['/']
    · have h1 : normalizeMemoryPath p = p.dropLast := by
        rw [normalizeMemoryPath, if_pos hcond]
      rw [h1]
      have hnc : ¬ (p.dropLast.getLast? = some '/' ∧ p.dropLast ≠ ['/']) := by
        rintro ⟨hl2, hne2⟩
        apply hns
        have hrec : p.dropLast ++ ['/'] = p :=
          List.dropLast_append_getLast? '/' (by rw [Option.mem_def]; exact hcond.1)
        have hrec2 : p.dropLast.dropLast ++ ['/'] = p.dropLast :=
          List.dropLast_append_getLast? '/' (by rw [Option.mem_def]; exact hl2)
        refine ⟨p.dropLast.dropLast, ?_⟩
        rw [show ("//".data : Str) = ['/'] ++ ['/'] from rfl, ← List.append_assoc, hrec2, hrec]
      rw [normalizeMemoryPath, if_neg hnc]
    · have h1 : normalizeMemoryPath p = p := by
        rw [normalizeMemoryPath, if_neg hcond]
      rw [h1, h1]

/-- Witness: `validate_normalize_spec` applied at the concrete valid
path `/memories/notes/`. -/
theorem validate_normalize_spec_witness :
    validateMemoryPath (normalizeMemoryPath "/memories/notes/".data) = .ok () ∧
    (¬ ("//".data <:+ "/memories/notes/".data) →
      normalizeMemoryPath (normalizeMemoryPath "/memories/notes/".data) =
        normalizeMemoryPath "/memories/notes/".data) :=
  validate_normalize_spec "/memories/notes/".data (by decide)

example :
    (wsCreate wsInit "/memories/a.txt".data "hi".data 3).1 = .ok () := by decide

example :
    (wsReadRaw (wsCreate wsInit "/memories/a.txt".data "hi".data 3).2 "/memories/a.txt".data 4).1 =
      .ok "hi".data := by decide

example :
    (wsReadRaw (wsCreate wsInit "/memories/a.txt".data [] 3).2 "/memories/a.txt".data 4).1 =
      .ok [] := by decide

example :
    (secretReadRaw "w".data
      (secretCreate "w".data secretInit "/memories/a.txt".data "hi".data 0).2
      "/memories/a.txt".data 1).1 = .ok "hi".data := by decide

example :
    (diskListFiles (fun _ => false) [("b.txt".data, .file 1 0), ("a.txt".data, .file 1 0)]).map
      (fun i => i.path) = ["/memories/b.txt".data, "/memories/a.txt".data] := by decide

example :
    (wsView (wsCreate wsInit "/memories/notes.txt".data "Hello world".data 0).2
      "/memories/notes.txt".data none 1).1 = .ok "   1: Hello world".data := by decide

example :
    (wsView (wsCreate wsInit "/memories/f".data "Line1\nLine2\nLine3".data 0).2
      "/memories/f".data (some (2, 2)) 1).1 = .ok "   2: Line2".data := by decide

/-! ### Lemmas on the association-list primitives and path helpers -/

/-- Assignment then lookup at the same key yields the assigned value. -/
theorem alookup_aset_self (k : Str) (v : β) (m : List (Str × β)) :
    alookup k (aset k v m) = some v := by
  induction m with
  | nil => simp [aset, alookup]
  | cons kv t ih =>
    obtain ⟨k2, v2⟩ := kv
    by_cases h : k2 = k
    · simp [aset, alookup, h]
    · simp [aset, alookup, h, ih]

/-- A key looks up to `none` exactly when no entry carries it. -/
theorem alookup_eq_none_iff (k : Str) (m : List (Str × β)) :
    alookup k m = none ↔ ∀ kv ∈ m, kv.1 ≠ k := by
  induction m with
  | nil => simp [alookup]
  | cons kv t ih =>
    obtain ⟨k2, v2⟩ := kv
    by_cases h : k2 = k
    · simp only [alookup, if_pos h, List.forall_mem_cons]
      constructor
      · intro hx; cases hx
      · intro hall; exact absurd h hall.1
    · simp only [alookup, if_neg h, List.forall_mem_cons, ih]
      constructor
      · intro hall; exact ⟨h, hall⟩
      · intro hall; exact hall.2

/-- The reassembled normalized path is never empty. -/
theorem posixNormalizeCore_ne_nil (ab tq : Bool) (segs : List Str) :
    posixNormalizeCore ab tq segs ≠ [] := by
  unfold posixNormalizeCore
  by_cases hcz : List.intercalate ['/'] (resolveSegs ab segs) = []
  · rw [if_pos hcz]
    cases ab <;> cases tq <;> simp
  · rw [if_neg hcz]
    cases ab <;> cases tq <;> simp [hcz]

/-- `posix.normalize` never returns the empty string. -/
theorem posixNormalize_ne_nil (p : Str) : posixNormalize p ≠ [] := by
  unfold posixNormalize
  by_cases hp : p = []
  · rw [if_pos hp]; simp
  · rw [if_neg hp]; exact posixNormalizeCore_ne_nil _ _ _

/-- `posix.join` never returns the empty string. -/
theorem posixJoin_ne_nil (a b : Str) : posixJoin a b ≠ [] := by
  unfold posixJoin
  by_cases hb : b = []
  · rw [if_pos hb]; exact posixNormalize_ne_nil a
  · rw [if_neg hb]; exact posixNormalize_ne_nil _

/-- A successfully resolved full path is never the empty string. -/
theorem getFullPath_ne_nil (p f : Str) (hf : getFullPath p = .ok f) : f ≠ [] := by
  unfold getFullPath at hf
  split at hf
  · cases hf
  · simp only [] at hf
    split at hf
    · rename_i hcond
      have hfe : normalizeMemoryPath p = f := by injection hf
      intro h0
      rw [← hfe] at h0
      rw [h0] at hcond
      exact absurd hcond (by decide)
    · have hfe : posixJoin MEMORIES_DIR (normalizeMemoryPath p) = f := by injection hf
      intro h0
      exact posixJoin_ne_nil _ _ (hfe.trans h0)

/-- No nonempty path `f` has the root `/memories` nested strictly under
it: `f ++ "/"` is never a prefix of `/memories`, since `/memories`
contains a separator only at position 0. -/
theorem root_not_under (f : Str) (hne : f ≠ []) : ¬ ((f ++ ['/']) <+: MEMORIES_DIR) := by
  intro hpre
  obtain ⟨t, ht⟩ := hpre
  have hidx : MEMORIES_DIR[f.length]? = some '/' := by
    rw [← ht, List.append_assoc, List.getElem?_append_right (le_refl f.length)]
    simp
  have h9 : MEMORIES_DIR.length = 9 := by decide
  have hlt : f.length < 9 := by
    have hl := congrArg List.length ht
    simp only [List.length_append, List.length_cons, List.length_nil] at hl
    omega
  have hz : f.length = 0 := by
    by_contra hnz
    have hall : ∀ n, n < 9 → n ≠ 0 → ¬ (MEMORIES_DIR[n]? = some '/') := by decide
    exact hall f.length hlt hnz hidx
  exact hne (List.length_eq_zero.mp hz)

/-- Membership in a sorting adapter's listing: exactly the non-root
directory records and the file records. -/
theorem mem_wsListFiles_iff (s : WsState) (cmp : Str → Str → Int) (pins : Str → Bool)
    (now : Nat) (info : IMemoryFileInfo) :
    info ∈ wsListFiles s cmp pins now ↔
      ((∃ d ∈ s.dirs, d ≠ MEMORIES_DIR ∧ info = dirInfo s pins now d) ∨
       (∃ kv ∈ s.files, info = fileInfo s pins kv)) := by
  unfold wsListFiles
  rw [List.mem_insertionSort]
  simp only [List.mem_append, List.mem_map, List.mem_filter, decide_eq_true_eq]
  constructor
  · rintro (⟨d, ⟨hd, hne⟩, he⟩ | ⟨kv, hkv, he⟩)
    · exact Or.inl ⟨d, hd, hne, he.symm⟩
    · exact Or.inr ⟨kv, hkv, he.symm⟩
  · rintro (⟨d, hd, hne, he⟩ | ⟨kv, hkv, he⟩)
    · exact Or.inl ⟨d, ⟨hd, hne⟩, he.symm⟩
    · exact Or.inr ⟨kv, hkv, he.symm⟩

/-- C10: in the workspace-state (and identically implemented
branch-state) adapter, `view` and `readRaw` write a fresh access
timestamp for the resolved path before the existence check, so a call
that fails NotFound still mutates the persisted access-time map: these
read operations are not state-preserving on error. -/
theorem view_readRaw_access_on_error (s : WsState) (p f : Str) (now : Nat)
    (hf : getFullPath p = .ok f) (hdir : f ∉ s.dirs) (hfile : alookup f s.files = none) :
    ((wsView s p none now).1 = .error (viewNotFoundMsg p) ∧
      alookup f (wsView s p none now).2.access = some now) ∧
    ((wsReadRaw s p now).1 = .error (readRawNotFoundMsg p) ∧
      alookup f (wsReadRaw s p now).2.access = some now) ∧
    (alookup f s.access ≠ some now → (wsReadRaw s p now).2 ≠ s) := by
  have hv : wsView s p none now =
      (.error (viewNotFoundMsg p), { s with access := aset f now s.access }) := by
    simp only [wsView, hf]
    rw [if_neg hdir, hfile]
  have hr : wsReadRaw s p now =
      (.error (readRawNotFoundMsg p), { s with access := aset f now s.access }) := by
    simp only [wsReadRaw, hf]
    rw [hfile]
  refine ⟨⟨?_, ?_⟩, ⟨?_, ?_⟩, ?_⟩
  · rw [hv]
  · rw [hv]; exact alookup_aset_self f now s.access
  · rw [hr]
  · rw [hr]; exact alookup_aset_self f now s.access
  · intro hne heq
    apply hne
    rw [hr] at heq
    have hacc := congrArg WsState.access heq
    rw [← hacc]
    exact alookup_aset_self f now s.access

/-- C10 witness: a missing file in the fresh store. -/
theorem view_readRaw_access_on_error_witness :
    ((wsView wsInit "/memories/missing.txt".data none 7).1 =
        .error (viewNotFoundMsg "/memories/missing.txt".data) ∧
      alookup "/memories/missing.txt".data
        (wsView wsInit "/memories/missing.txt".data none 7).2.access = some 7) ∧
    ((wsReadRaw wsInit "/memories/missing.txt".data 7).1 =
        .error (readRawNotFoundMsg "/memories/missing.txt".data) ∧
      alookup "/memories/missing.txt".data
        (wsReadRaw wsInit "/memories/missing.txt".data 7).2.access = some 7) ∧
    (alookup "/memories/missing.txt".data wsInit.access ≠ some 7 →
      (wsReadRaw wsInit "/memories/missing.txt".data 7).2 ≠ wsInit) :=
  view_readRaw_access_on_error wsInit "/memories/missing.txt".data
    "/memories/missing.txt".data 7 (by decide) (by decide) (by decide)

/-- C1: the create/readRaw round-trip fails in the secret adapter for
empty content — `create` succeeds and stores the empty string, but
`readRaw` tests the fetched content for JS falsiness, so the stored
empty string is reported as NotFound; the workspace-state adapter
round-trips the identical call sequence to the empty string. -/
theorem secret_empty_roundtrip_bug :
    (secretCreate "w".data secretInit "/memories/a.txt".data [] 0).1 = .ok () ∧
    (secretReadRaw "w".data
        (secretCreate "w".data secretInit "/memories/a.txt".data [] 0).2
        "/memories/a.txt".data 1).1 =
      .error (readRawNotFoundMsg "/memories/a.txt".data) ∧
    (wsCreate wsInit "/memories/a.txt".data [] 0).1 = .ok () ∧
    (wsReadRaw (wsCreate wsInit "/memories/a.txt".data [] 0).2
        "/memories/a.txt".data 1).1 = .ok [] := by decide

/-- C7: renaming a file onto its own path deletes it — the source
assigns `files[newFullPath]` before deleting `files[oldFullPath]`, so
when the two paths coincide the single entry is removed: after a
successful `rename(a, a)` the file and its metadata are gone and
`readRaw(a)` fails NotFound, instead of `readRaw(a)` returning the
prior content. -/
theorem rename_same_path_deletes_file :
    (wsReadRaw (wsCreate wsInit "/memories/f.txt".data "hello".data 0).2
        "/memories/f.txt".data 1).1 = .ok "hello".data ∧
    (wsRename (wsCreate wsInit "/memories/f.txt".data "hello".data 0).2
        "/memories/f.txt".data "/memories/f.txt".data).1 = .ok () ∧
    alookup "/memories/f.txt".data
      ((wsRename (wsCreate wsInit "/memories/f.txt".data "hello".data 0).2
        "/memories/f.txt".data "/memories/f.txt".data).2).files = none ∧
    (wsReadRaw ((wsRename (wsCreate wsInit "/memories/f.txt".data "hello".data 0).2
        "/memories/f.txt".data "/memories/f.txt".data).2) "/memories/f.txt".data 2).1 =
      .error (readRawNotFoundMsg "/memories/f.txt".data) := by decide

/-- C5 counterexample: the public API can make one path denote both a
file and a directory (`create` on a path nested under it, then `create`
on the path itself). Deleting the directory then reports success but
leaves the file whose key equals the directory path: the listing
afterwards still contains an entry whose path starts with (equals) the
deleted directory path. -/
theorem delete_dual_kind_counterexample :
    (wsDelete (wsCreate (wsCreate wsInit "/memories/a/b".data "x".data 0).2
        "/memories/a".data "y".data 1).2 "/memories/a".data).1 =
      .ok "Directory deleted: /memories/a".data ∧
    ((wsListFiles (wsDelete (wsCreate (wsCreate wsInit "/memories/a/b".data "x".data 0).2
        "/memories/a".data "y".data 1).2 "/memories/a".data).2
        lexCmpInt (fun _ => false) 9).map (fun i => i.path)).contains
      "/memories/a".data = true := by decide

/-- C5 (amended): when the targeted directory path is not simultaneously
the key of a file, `delete` on it succeeds with the directory message
and removes every entry equal to or nested under that path — afterwards
the listing contains no entry whose path is the directory or starts
with it plus a separator — and the root directory survives, also when
the delete targets it directly. (Unrestricted, the claim fails: a path
can denote both a file and a directory, and the file at the directory's
own path survives the delete.) -/
theorem wsDelete_subtree_spec (s : WsState) (p f : Str) (cmp : Str → Str → Int)
    (pins : Str → Bool) (now : Nat)
    (hf : getFullPath p = .ok f) (hdir : f ∈ s.dirs)
    (hnofile : alookup f s.files = none) (hroot : MEMORIES_DIR ∈ s.dirs) :
    (wsDelete s p).1 = .ok ("Directory deleted: ".data ++ p) ∧
    MEMORIES_DIR ∈ (wsDelete s p).2.dirs ∧
    ∀ info ∈ wsListFiles (wsDelete s p).2 cmp pins now,
      info.path ≠ f ∧ ¬ ((f ++ ['/']) <+: info.path) := by
  have hfne : f ≠ [] := getFullPath_ne_nil p f hf
  have hrootp : ¬ ((f ++ ['/']) <+: MEMORIES_DIR) := root_not_under f hfne
  simp only [wsDelete, hf]
  rw [if_pos hdir]
  refine ⟨rfl, ?_, ?_⟩
  · have h1 : MEMORIES_DIR ∈ s.dirs.filter (fun d => ¬ ((f ++ ['/']) <+: d)) := by
      rw [List.mem_filter, decide_eq_true_eq]
      exact ⟨hroot, hrootp⟩
    by_cases hfr : f = MEMORIES_DIR
    · rw [if_neg (fun hx => hx hfr)]
      exact h1
    · rw [if_pos hfr]
      rw [List.mem_filter, decide_eq_true_eq]
      exact ⟨h1, fun hx => hfr hx.symm⟩
  · intro info hmem
    rw [mem_wsListFiles_iff] at hmem
    rcases hmem with ⟨d, hd, hdne, he⟩ | ⟨kv, hkv, he⟩
    · have hd1 : d ∈ s.dirs.filter (fun x => ¬ ((f ++ ['/']) <+: x)) ∧ d ≠ f := by
        by_cases hfr : f = MEMORIES_DIR
        · rw [if_neg (fun hx => hx hfr)] at hd
          exact ⟨hd, fun hdf => hdne (hdf.trans hfr)⟩
        · rw [if_pos hfr] at hd
          rw [List.mem_filter, decide_eq_true_eq] at hd
          exact ⟨hd.1, hd.2⟩
      obtain ⟨hd2, hdnf⟩ := hd1
      rw [List.mem_filter, decide_eq_true_eq] at hd2
      subst he
      exact ⟨hdnf, hd2.2⟩
    · rw [List.mem_filter, decide_eq_true_eq] at hkv
      subst he
      have hne := (alookup_eq_none_iff f s.files).mp hnofile kv hkv.1
      exact ⟨hne, hkv.2⟩

/-- C5 witness: deleting `/memories/d` in a store holding the file
`/memories/d/f.txt` and no file key at `/memories/d`. -/
theorem wsDelete_subtree_spec_witness :
    (wsDelete ⟨[("/memories/d/f.txt".data, ⟨"x".data, 0⟩)],
        [MEMORIES_DIR, "/memories/d".data], [], [], []⟩ "/memories/d".data).1 =
      .ok ("Directory deleted: ".data ++ "/memories/d".data) ∧
    MEMORIES_DIR ∈ (wsDelete ⟨[("/memories/d/f.txt".data, ⟨"x".data, 0⟩)],
        [MEMORIES_DIR, "/memories/d".data], [], [], []⟩ "/memories/d".data).2.dirs ∧
    ∀ info ∈ wsListFiles (wsDelete ⟨[("/memories/d/f.txt".data, ⟨"x".data, 0⟩)],
        [MEMORIES_DIR, "/memories/d".data], [], [], []⟩ "/memories/d".data).2
        lexCmpInt (fun _ => false) 5,
      info.path ≠ "/memories/d".data ∧
        ¬ (("/memories/d".data ++ ['/']) <+: info.path) :=
  wsDelete_subtree_spec
    ⟨[("/memories/d/f.txt".data, ⟨"x".data, 0⟩)], [MEMORIES_DIR, "/memories/d".data], [], [], []⟩
    "/memories/d".data "/memories/d".data lexCmpInt (fun _ => false) 5
    (by decide) (by decide) (by decide) (by decide)

/-- C6 counterexample: the disk adapter's `listFiles` never sorts — it
returns the records in depth-first `readDirectory` order. With the
directory yielding `b.txt` before `a.txt`, the listing comes back in
that order, which is not sorted lexicographically by path. -/
theorem disk_listFiles_unsorted :
    ((diskListFiles (fun _ => false)
        [("b.txt".data, .file 1 0), ("a.txt".data, .file 1 0)]).map (fun i => i.path) =
      ["/memories/b.txt".data, "/memories/a.txt".data]) ∧
    ¬ List.Pairwise (fun a b => lexCmpInt a.path b.path ≤ 0)
      (diskListFiles (fun _ => false)
        [("b.txt".data, .file 1 0), ("a.txt".data, .file 1 0)]) := by decide

/-- C6 (amended): in the workspace-state adapter (and the identically
implemented branch-state, in-memory and secret adapters), `listFiles`
returns exactly one record per directory other than the root and one
per file, with resolved metadata and pin state, sorted by the
`localeCompare` comparator on paths whenever that comparator is total
and transitive; the disk adapter returns its records in traversal order
without sorting. -/
theorem wsListFiles_spec (s : WsState) (cmp : Str → Str → Int) (pins : Str → Bool) (now : Nat)
    (htot : ∀ a b, cmp a b ≤ 0 ∨ cmp b a ≤ 0)
    (htrans : ∀ a b c, cmp a b ≤ 0 → cmp b c ≤ 0 → cmp a c ≤ 0) :
    (∀ info, info ∈ wsListFiles s cmp pins now ↔
      ((∃ d ∈ s.dirs, d ≠ MEMORIES_DIR ∧ info = dirInfo s pins now d) ∨
       (∃ kv ∈ s.files, info = fileInfo s pins kv))) ∧
    List.Sorted (fun a b => cmp a.path b.path ≤ 0) (wsListFiles s cmp pins now) := by
  refine ⟨fun info => mem_wsListFiles_iff s cmp pins now info, ?_⟩
  haveI : IsTotal IMemoryFileInfo (fun a b => cmp a.path b.path ≤ 0) :=
    ⟨fun a b => htot a.path b.path⟩
  haveI : IsTrans IMemoryFileInfo (fun a b => cmp a.path b.path ≤ 0) :=
    ⟨fun a b c => htrans a.path b.path c.path⟩
  exact List.sorted_insertionSort _ _

/-- C6 witness: a store with one directory and one file, under the
trivially total and transitive constant comparator. -/
theorem wsListFiles_spec_witness :
    (∀ info, info ∈ wsListFiles ⟨[("/memories/d/f.txt".data, ⟨"x".data, 0⟩)],
        [MEMORIES_DIR, "/memories/d".data], [], [], []⟩ (fun _ _ => 0) (fun _ => false) 5 ↔
      ((∃ d ∈ (⟨[("/memories/d/f.txt".data, ⟨"x".data, 0⟩)],
          [MEMORIES_DIR, "/memories/d".data], [], [], []⟩ : WsState).dirs, d ≠ MEMORIES_DIR ∧
          info = dirInfo ⟨[("/memories/d/f.txt".data, ⟨"x".data, 0⟩)],
            [MEMORIES_DIR, "/memories/d".data], [], [], []⟩ (fun _ => false) 5 d) ∨
       (∃ kv ∈ (⟨[("/memories/d/f.txt".data, ⟨"x".data, 0⟩)],
          [MEMORIES_DIR, "/memories/d".data], [], [], []⟩ : WsState).files,
          info = fileInfo ⟨[("/memories/d/f.txt".data, ⟨"x".data, 0⟩)],
            [MEMORIES_DIR, "/memories/d".data], [], [], []⟩ (fun _ => false) kv))) ∧
    List.Sorted (fun a b => (fun _ _ => (0 : Int)) a.path b.path ≤ 0)
      (wsListFiles ⟨[("/memories/d/f.txt".data, ⟨"x".data, 0⟩)],
        [MEMORIES_DIR, "/memories/d".data], [], [], []⟩ (fun _ _ => 0) (fun _ => false) 5) :=
  wsListFiles_spec
    ⟨[("/memories/d/f.txt".data, ⟨"x".data, 0⟩)], [MEMORIES_DIR, "/memories/d".data], [], [], []⟩
    (fun _ _ => 0) (fun _ => false) 5
    (fun _ _ => Or.inl (le_refl 0)) (fun _ _ _ _ _ => le_refl 0)
